import Mathlib

/-!
Verification of the helmet installer framework core.

This file embeds, in Lean, the parts of the repository needed to settle the
frozen claims: the integration prerequisite engine
(`internal/resolver/integrations.go`), the topology resolver (modelled from the
specification, the Go source of `resolver.go` / `topology.go` / `cel.go` is not
part of the provided sources), the `deploy-order.sh` optimistic-concurrency
append script, the MCP phase derivation, and the `integration` subcommand
(`internal/subcmd/integration.go`).

Conventions: Go maps used by the engine are embedded as association lists,
Go errors as explicit error inductives under `Except`, and Kubernetes state as
plain record types.  Chart names are compared with a code-point lexicographic
order (`nameLe`), which is the alphabetical order used by the collection walk.
-/

deriving instance DecidableEq for Except

namespace Helmet

/-! ### Lexicographic order on names

`String` comparison from core does not reduce in the kernel, so alphabetical
ordering of chart names is defined on the underlying character lists. -/

/-- Lexicographic less-or-equal on character lists, by code point. -/
def lexLe : List Char → List Char → Bool
  | [], _ => true
  | _ :: _, [] => false
  | a :: as, b :: bs => if a = b then lexLe as bs else decide (a < b)

/-- Alphabetical less-or-equal on names (code-point lexicographic). -/
def nameLe (a b : String) : Bool :=
  lexLe a.toList b.toList

theorem lexLe_total : ∀ as bs : List Char, lexLe as bs = true ∨ lexLe bs as = true
  | [], _ => Or.inl rfl
  | _ :: _, [] => Or.inr rfl
  | a :: as, b :: bs => by
    by_cases hab : a = b
    · subst hab
      simpa [lexLe] using lexLe_total as bs
    · rcases lt_or_gt_of_ne hab with h | h
      · exact Or.inl (by simp [lexLe, hab, h])
      · exact Or.inr (by simp [lexLe, Ne.symm hab, h])

theorem lexLe_trans :
    ∀ as bs cs : List Char,
      lexLe as bs = true → lexLe bs cs = true → lexLe as cs = true
  | [], _, _, _, _ => rfl
  | _ :: _, [], _, h₁, _ => by simp [lexLe] at h₁
  | _ :: _, _ :: _, [], _, h₂ => by simp [lexLe] at h₂
  | a :: as, b :: bs, c :: cs, h₁, h₂ => by
    by_cases hab : a = b
    · subst hab
      by_cases hbc : a = c
      · subst hbc
        simp only [lexLe, if_pos rfl] at h₁ h₂ ⊢
        exact lexLe_trans as bs cs h₁ h₂
      · simp only [lexLe, if_pos rfl] at h₁
        simpa [lexLe, hbc] using h₂
    · by_cases hbc : b = c
      · subst hbc
        simpa [lexLe, hab] using h₁
      · simp only [lexLe, if_neg hab, decide_eq_true_eq] at h₁
        simp only [lexLe, if_neg hbc, decide_eq_true_eq] at h₂
        have hac : a < c := lt_trans h₁ h₂
        simp [lexLe, ne_of_lt hac, hac]

theorem lexLe_antisymm :
    ∀ as bs : List Char, lexLe as bs = true → lexLe bs as = true → as = bs
  | [], [], _, _ => rfl
  | [], _ :: _, _, h₂ => by simp [lexLe] at h₂
  | _ :: _, [], h₁, _ => by simp [lexLe] at h₁
  | a :: as, b :: bs, h₁, h₂ => by
    by_cases hab : a = b
    · subst hab
      simp only [lexLe, if_pos rfl] at h₁ h₂
      rw [lexLe_antisymm as bs h₁ h₂]
    · simp only [lexLe, if_neg hab, decide_eq_true_eq] at h₁
      simp only [lexLe, if_neg (Ne.symm hab), decide_eq_true_eq] at h₂
      exact absurd h₂ (lt_asymm h₁)

theorem nameLe_total (a b : String) : nameLe a b = true ∨ nameLe b a = true :=
  lexLe_total a.toList b.toList

theorem nameLe_trans {a b c : String} (h₁ : nameLe a b = true)
    (h₂ : nameLe b c = true) : nameLe a c = true :=
  lexLe_trans a.toList b.toList c.toList h₁ h₂

theorem nameLe_antisymm {a b : String} (h₁ : nameLe a b = true)
    (h₂ : nameLe b a = true) : a = b := by
  have h := lexLe_antisymm a.toList b.toList h₁ h₂
  have hd : a.data = b.data := h
  cases a; cases b; exact congrArg String.mk hd

/-! ### CEL expressions

Modelled from the spec: the CEL environment of `internal/resolver/cel.go` is
not part of the provided sources.  Requirement expressions are boolean
combinations of integration-name atoms (`&&`, `||`, `!`, parentheses); an
expression carried by a chart either parses to such a combination or is
invalid, in which case evaluation reports an invalid-expression error.
Evaluating a well-formed expression against the configured mapping either
succeeds (the expression is true) or reports the identifiers appearing in the
expression whose current value is false. -/

/-- A parsed requirement expression over integration-name atoms. -/
inductive CELExpr where
  | atom (name : String)
  | and (a b : CELExpr)
  | or (a b : CELExpr)
  | not (e : CELExpr)
deriving DecidableEq, Repr

/-- The `integrations-required` annotation as handed to the CEL engine:
either it parses and type-checks to an expression, or it is invalid. -/
inductive CELSource where
  | valid (e : CELExpr)
  | invalid (msg : String)
deriving DecidableEq, Repr

/-- Evaluate an expression against an environment of boolean atoms. -/
def celEval (env : String → Bool) : CELExpr → Bool
  | .atom n => env n
  | .and a b => celEval env a && celEval env b
  | .or a b => celEval env a || celEval env b
  | .not e => !celEval env e

/-- All identifiers appearing in an expression. -/
def CELExpr.atoms : CELExpr → List String
  | .atom n => [n]
  | .and a b => a.atoms ++ b.atoms
  | .or a b => a.atoms ++ b.atoms
  | .not e => e.atoms

/-! ### Data model -/

/-- A Helm chart with the annotations driving the core (`product-name`,
`use-product-namespace`, `depends-on`, `weight`, `integrations-provided`,
`integrations-required`).  An absent string annotation is the empty string;
an absent requirement is `none`. -/
structure Chart where
  name : String
  productName : String := ""
  useProductNamespace : String := ""
  dependsOn : List String := []
  weight : Int := 0
  integrationsProvided : List String := []
  integrationsRequired : Option CELSource := none
deriving DecidableEq, Repr

/-- An entry of the resolved topology: a chart plus its assigned namespace. -/
structure Dependency where
  chart : Chart
  namespaceName : String
deriving DecidableEq, Repr

/-- A product declared in the configuration. -/
structure Product where
  name : String
  enabled : Bool
  productNamespace : String
deriving DecidableEq, Repr

/-- The configuration: ordered product sequence plus installer namespace. -/
structure Config where
  products : List Product
  installerNamespace : String
deriving DecidableEq, Repr

/-- The resolved topology: an ordered sequence of chart references. -/
abbrev Topology := List Dependency

/-- The chart names of a topology, in order. -/
def topoNames (t : Topology) : List String :=
  t.map (fun d => d.chart.name)

/-! ### Integration prerequisite engine

Embedded from `internal/resolver/integrations.go`.  The `configured` Go map
(`map[string]bool`) is an association list; pass 1 only updates existing
entries, never inserts. -/

/-- The `configured` integration state machine: name to configured flag. -/
abbrev ConfiguredMap := List (String × Bool)

/-- Map lookup (`configured[provided]` with its `exists` flag). -/
def lookupB (m : ConfiguredMap) (k : String) : Option Bool :=
  (m.find? (fun p => p.1 == k)).map (fun p => p.2)

/-- Map update of an existing key (`i.configured[provided] = true`). -/
def setB (m : ConfiguredMap) (k : String) (v : Bool) : ConfiguredMap :=
  m.map (fun p => if p.1 == k then (p.1, v) else p)

/-- Environment view of the configured map: unknown names read as false. -/
def envOf (m : ConfiguredMap) (k : String) : Bool :=
  (lookupB m k).getD false

/-- The identifiers appearing in `e` whose current value is false; this is
the missing set reported by a failed evaluation. -/
def falseAtoms (m : ConfiguredMap) (e : CELExpr) : List String :=
  e.atoms.filter (fun n => !envOf m n)

/-- Errors surfaced by the CEL evaluation (`ErrMissingIntegrations`,
`ErrInvalidExpression`). -/
inductive CELError where
  | missingIntegrations (names : List String)
  | invalidExpression (msg : String)
deriving DecidableEq, Repr

/-- `CEL.Evaluate`: succeed when the expression is true, report the false
identifiers when it is false, report the cause when it does not parse or
type-check.  Modelled from the spec (`cel.go` is not in the sources). -/
def celEvaluate (m : ConfiguredMap) : CELSource → Except CELError Unit
  | .invalid msg => .error (.invalidExpression msg)
  | .valid e =>
    if celEval (envOf m) e then .ok () else .error (.missingIntegrations (falseAtoms m e))

/-- Errors returned by `Integrations.Inspect`. -/
inductive InspectError where
  | unknownIntegration (name chartName productName : String)
  | prerequisiteIntegration (chartName : String) (required : CELSource)
      (missing : List String)
  | invalidExpression (chartName : String) (required : CELSource) (cause : String)
deriving DecidableEq, Repr

/-- Pass 1, one chart's `integrations-provided` list: unknown names abort
with `ErrUnknownIntegration`; already-configured names are skipped; the rest
are marked configured. -/
def provideAll (chartName productName : String) :
    ConfiguredMap → List String → Except InspectError ConfiguredMap
  | m, [] => .ok m
  | m, p :: ps =>
    match lookupB m p with
    | none => .error (.unknownIntegration p chartName productName)
    | some true => provideAll chartName productName m ps
    | some false => provideAll chartName productName (setB m p true) ps

/-- Pass 1 over the topology walk: collect all provisions. -/
def pass1 : ConfiguredMap → Topology → Except InspectError ConfiguredMap
  | m, [] => .ok m
  | m, d :: ds =>
    match provideAll d.chart.name d.chart.productName m d.chart.integrationsProvided with
    | .error e => .error e
    | .ok m' => pass1 m' ds

/-- Pass 2, one chart: evaluate its non-empty `integrations-required`
expression against the configured map, wrapping CEL failures into
`ErrPrerequisiteIntegration` / `ErrInvalidExpression`. -/
def pass2Chart (m : ConfiguredMap) (d : Dependency) : Except InspectError Unit :=
  match d.chart.integrationsRequired with
  | none => .ok ()
  | some src =>
    match celEvaluate m src with
    | .ok () => .ok ()
    | .error (.missingIntegrations ms) =>
      .error (.prerequisiteIntegration d.chart.name src ms)
    | .error (.invalidExpression cause) =>
      .error (.invalidExpression d.chart.name src cause)

/-- Pass 2 over the topology walk: validate all requirements. -/
def pass2 (m : ConfiguredMap) : Topology → Except InspectError Unit
  | [] => .ok ()
  | d :: ds =>
    match pass2Chart m d with
    | .error e => .error e
    | .ok () => pass2 m ds

/-- `Integrations.Inspect`: the two-pass walk of the topology. -/
def Inspect (m : ConfiguredMap) (t : Topology) : Except InspectError Unit :=
  match pass1 m t with
  | .error e => .error e
  | .ok m' => pass2 m' t

/-- Whether some chart anywhere in the topology provides integration `k`. -/
def providedIn (t : Topology) (k : String) : Bool :=
  t.any (fun d => d.chart.integrationsProvided.contains k)

/-- The combined mapping: cluster-configured integrations unioned with the
integrations provided by any chart anywhere in the topology. -/
def combinedEnv (m : ConfiguredMap) (t : Topology) (k : String) : Bool :=
  envOf m k || providedIn t k

/-- A chart's requirement, evaluated against an environment: vacuously true
when absent, false when invalid, the CEL value otherwise. -/
def requirementHolds (env : String → Bool) (d : Dependency) : Bool :=
  match d.chart.integrationsRequired with
  | none => true
  | some (.invalid _) => false
  | some (.valid e) => celEval env e

/-- Every `integrations-provided` name of the topology is a known entry of
the configured map. -/
def KnownProvided (m : ConfiguredMap) (t : Topology) : Prop :=
  ∀ d ∈ t, ∀ q ∈ d.chart.integrationsProvided, (lookupB m q).isSome = true

/-! ### Topology resolver

Modelled from the spec: the Go sources of `Resolver.Resolve` and `Topology`
are not among the provided files (only their tests and documentation are).
The model follows §4.3 of the spec: Phase A resolves enabled products in
configuration declaration order, Phase B walks the remaining charts in
alphabetical order; dependencies are resolved recursively with a visiting
set for cycle detection, children are sorted by descending weight with
alphabetical tie-break, and namespaces follow the three-tier rule. -/

/-- Failure modes of topology resolution. -/
inductive ResolveError where
  | chartNotFound (name referer : String)
  | circularDependency (path : List String)
  | productChartNotFound (product : String)
  | fuelExhausted
deriving DecidableEq, Repr

/-- Child ordering: descending weight, ties broken by ascending chart name. -/
def childLe (a b : Chart) : Prop :=
  b.weight < a.weight ∨ (a.weight = b.weight ∧ nameLe a.name b.name = true)

instance : DecidableRel childLe := fun a b => by
  unfold childLe
  infer_instance

/-- Alphabetical ordering of charts by name. -/
def chartNameLe (a b : Chart) : Prop :=
  nameLe a.name b.name = true

instance : DecidableRel chartNameLe := fun a b => by
  unfold chartNameLe
  infer_instance

/-- Strict alphabetical ordering of charts by name. -/
def chartNameLt (a b : Chart) : Prop :=
  nameLe a.name b.name = true ∧ a.name ≠ b.name

instance : IsTotal Chart childLe where
  total a b := by
    unfold childLe
    rcases lt_trichotomy a.weight b.weight with h | h | h
    · exact Or.inr (Or.inl h)
    · rcases nameLe_total a.name b.name with hn | hn
      · exact Or.inl (Or.inr ⟨h, hn⟩)
      · exact Or.inr (Or.inr ⟨h.symm, hn⟩)
    · exact Or.inl (Or.inl h)

instance : IsTrans Chart childLe where
  trans a b c hab hbc := by
    unfold childLe at hab hbc ⊢
    rcases hab with h₁ | ⟨e₁, l₁⟩
    · rcases hbc with h₂ | ⟨e₂, _⟩
      · exact Or.inl (lt_trans h₂ h₁)
      · exact Or.inl (e₂ ▸ h₁)
    · rcases hbc with h₂ | ⟨e₂, l₂⟩
      · exact Or.inl (e₁ ▸ h₂)
      · exact Or.inr ⟨e₁.trans e₂, nameLe_trans l₁ l₂⟩

instance : IsTotal Chart chartNameLe where
  total a b := nameLe_total a.name b.name

instance : IsTrans Chart chartNameLe where
  trans _ _ _ hab hbc := nameLe_trans hab hbc

instance : IsAntisymm Chart chartNameLt where
  antisymm a b hab hba := absurd (nameLe_antisymm hab.1 hba.1) hab.2

/-- Stable sort of resolved children: higher weight first, alphabetical
tie-break. -/
def sortChildren (l : List Chart) : List Chart :=
  List.insertionSort childLe l

/-- The collection walk: all charts in alphabetical order of chart name. -/
def collectionWalk (col : List Chart) : List Chart :=
  List.insertionSort chartNameLe col

/-- Look a chart up in the collection by name. -/
def lookupChart (col : List Chart) (n : String) : Option Chart :=
  col.find? (fun c => c.name == n)

/-- Resolve the `depends-on` names of a chart to charts of the collection,
left to right; an unknown name aborts with the unknown chart and the
referring chart. -/
def lookupDeps (col : List Chart) (referer : String) :
    List String → Except ResolveError (List Chart)
  | [] => .ok []
  | n :: ns =>
    match lookupChart col n with
    | none => .error (.chartNotFound n referer)
    | some c =>
      match lookupDeps col referer ns with
      | .error e => .error e
      | .ok cs => .ok (c :: cs)

/-- Three-tier namespace rule: `product-name` wins, then
`use-product-namespace`, then the installer default. -/
def chartNamespace (cfg : Config) (c : Chart) : String :=
  if c.productName ≠ "" then
    match cfg.products.find? (fun p => p.name == c.productName) with
    | some p => p.productNamespace
    | none => cfg.installerNamespace
  else if c.useProductNamespace ≠ "" then
    match cfg.products.find? (fun p => p.name == c.useProductNamespace) with
    | some p => p.productNamespace
    | none => cfg.installerNamespace
  else cfg.installerNamespace

/-- Run an action over a list of charts, threading the topology and aborting
on the first error (the shape of walking resolved children in order). -/
def resolveChildrenWith (f : Topology → Chart → Except ResolveError Topology) :
    Topology → List Chart → Except ResolveError Topology
  | topo, [] => .ok topo
  | topo, ch :: rest =>
    match f topo ch with
    | .error e => .error e
    | .ok topo' => resolveChildrenWith f topo' rest

/-- Recursive dependency resolution for one chart: skip when already
appended, raise on a cycle, resolve the sorted children first, then append
the chart with its namespace.  `fuel` bounds the recursion depth; the
top-level entry points supply more fuel than any success needs. -/
def resolveChart (cfg : Config) (col : List Chart) :
    Nat → List String → Topology → Chart → Except ResolveError Topology
  | 0, _, _, _ => .error .fuelExhausted
  | fuel + 1, visiting, topo, c =>
    if (topoNames topo).contains c.name then .ok topo
    else if visiting.contains c.name then
      .error (.circularDependency (c.name :: visiting))
    else
      match lookupDeps col c.name c.dependsOn with
      | .error e => .error e
      | .ok children =>
        match resolveChildrenWith
            (fun tp ch => resolveChart cfg col fuel (c.name :: visiting) tp ch)
            topo (sortChildren children) with
        | .error e => .error e
        | .ok topo' => .ok (topo' ++ [⟨c, chartNamespace cfg c⟩])

/-- Phase A: for each enabled product in declaration order, locate its
product chart and resolve it. -/
def resolveProducts (cfg : Config) (col : List Chart) (fuel : Nat) :
    Topology → List Product → Except ResolveError Topology
  | topo, [] => .ok topo
  | topo, p :: ps =>
    if p.enabled then
      match col.find? (fun c => c.productName == p.name) with
      | none => .error (.productChartNotFound p.name)
      | some c =>
        match resolveChart cfg col fuel [] topo c with
        | .error e => .error e
        | .ok topo' => resolveProducts cfg col fuel topo' ps
    else resolveProducts cfg col fuel topo ps

/-- Phase B: resolve every remaining chart of the walk. -/
def resolveRemaining (cfg : Config) (col : List Chart) (fuel : Nat) :
    Topology → List Chart → Except ResolveError Topology
  | topo, [] => .ok topo
  | topo, c :: cs =>
    match resolveChart cfg col fuel [] topo c with
    | .error e => .error e
    | .ok topo' => resolveRemaining cfg col fuel topo' cs

/-- `Resolver.Resolve`: the two-phase resolution over the alphabetized
collection walk. -/
def Resolve (cfg : Config) (col : List Chart) : Except ResolveError Topology :=
  match resolveProducts cfg (collectionWalk col) ((collectionWalk col).length + 1)
      [] cfg.products with
  | .error e => .error e
  | .ok topo =>
    resolveRemaining cfg (collectionWalk col) ((collectionWalk col).length + 1)
      topo (collectionWalk col)

/-- `DepsClosedFrom seen t`: walking `t`, every `depends-on` name of each
entry is among `seen` or the names of earlier entries. -/
def DepsClosedFrom : List String → Topology → Prop
  | _, [] => True
  | seen, d :: rest =>
    (∀ n ∈ d.chart.dependsOn, n ∈ seen) ∧
    DepsClosedFrom (seen ++ [d.chart.name]) rest

/-- The shape of one resolution step under visiting set `vis`: the topology
is only extended by appending, every appended name is outside `vis`, name
uniqueness is preserved, and dependency-closedness is preserved. -/
def TopoStep (vis : List String) (topo topo' : Topology) : Prop :=
  (∃ new, topo' = topo ++ new) ∧
  (∀ n ∈ topoNames topo', n ∈ topoNames topo ∨ ¬n ∈ vis) ∧
  ((topoNames topo).Nodup → (topoNames topo').Nodup) ∧
  ∀ seen, DepsClosedFrom seen topo → DepsClosedFrom seen topo'

/-! ### The deploy-sequence append script

Embedded from `deploy-order.sh`: the script appends the release name to the
`deploy-sequence` ConfigMap under optimistic concurrency, retrying up to 5
times on resource-version conflict.  The ConfigMap is a resource version
plus the recorded sequence; interference by concurrent writers between the
read and the conditional patch is a function applied to the state. -/

/-- The `deploy-sequence` ConfigMap: resource version and recorded names. -/
structure CMState where
  rv : Nat
  seqData : List String
deriving DecidableEq, Repr

/-- `kubectl create configmap ... || true`: materialize an empty ConfigMap
when absent, keep the existing one otherwise. -/
def ensureCM : Option CMState → CMState
  | none => { rv := 0, seqData := [] }
  | some s => s

/-- An external writer that only bumps the resource version. -/
def bumpRv (s : CMState) : CMState :=
  { s with rv := s.rv + 1 }

/-- One read-modify-patch attempt per step: read the state, let the
scheduled interference act, then patch conditionally on the resource
version; a conflict consumes one attempt and retries on the new state. -/
def deployOrderAttempts (r : String) :
    Nat → List (CMState → CMState) → CMState → Option CMState
  | 0, _, _ => none
  | n + 1, ws, s =>
    let s' := (ws.headD id) s
    if s'.rv = s.rv then some { rv := s'.rv + 1, seqData := s.seqData ++ [r] }
    else deployOrderAttempts r n ws.tail s'

/-- The full script run: up to 5 attempts (`seq 1 5`). -/
def deployOrder (r : String) (ws : List (CMState → CMState)) (s : CMState) :
    Option CMState :=
  deployOrderAttempts r 5 ws s

/-- The orchestrator's recording across a run: one script execution per
release, strictly in order, no concurrent writers.  Modelled from the spec:
the orchestrator pipeline (chart `N+1` starts only after chart `N`
completes) is not among the provided sources. -/
def runDeploySequence : List String → Option CMState → Option CMState
  | [], cm => cm
  | r :: rs, cm =>
    match deployOrder r [] (ensureCM cm) with
    | none => none
    | some s => runDeploySequence rs (some s)

/-! ### MCP phase derivation

Modelled from the spec: the MCP status tool sources are not among the
provided files (only the e2e workflow test is).  The phase is a pure
function of cluster-observable state: configuration ConfigMap presence,
integration requirement satisfaction, and the deploy Job state. -/

/-- The five externally observable deployment phases. -/
inductive Phase where
  | awaitingConfiguration
  | awaitingIntegrations
  | readyToDeploy
  | deploying
  | completed
deriving DecidableEq, Repr

/-- Job state derived from the Job status counters. -/
inductive JobState where
  | notFound
  | deploying
  | failed
  | done
deriving DecidableEq, Repr

/-- Cluster-observable facts the status tool derives the phase from. -/
structure MCPCluster where
  config : Option Config
  integrationsReady : Bool
  job : JobState
deriving DecidableEq, Repr

/-- Phase derivation: config absent wins, then unsatisfied integrations,
then the Job state. -/
def derivePhase (s : MCPCluster) : Phase :=
  match s.config with
  | none => .awaitingConfiguration
  | some _ =>
    if !s.integrationsReady then .awaitingIntegrations
    else
      match s.job with
      | .deploying => .deploying
      | .done => .completed
      | _ => .readyToDeploy

/-- `config_init`: create the configuration ConfigMap from the default;
creation fails when one is already present. -/
def configInit (defaultCfg : Config) (s : MCPCluster) : Option MCPCluster :=
  match s.config with
  | some _ => none
  | none => some { s with config := some defaultCfg }

/-- `config_product_enabled`: flip one product's enabled flag in the stored
configuration; a no-op without a stored configuration. -/
def setProductEnabled (name : String) (enabled : Bool) (s : MCPCluster) :
    MCPCluster :=
  match s.config with
  | none => s
  | some cfg =>
    { s with
      config := some
        { cfg with
          products := cfg.products.map (fun p =>
            if p.name == name then { p with enabled := enabled } else p) } }

/-! ### The integration subcommand

Embedded from `internal/subcmd/integration.go`.  The collaborators that are
not among the provided sources are modelled from the spec: the integration
Secret naming convention (`{appName}-{integrationName}-integration`), the
collection's product-for-integration index, and the config products
accessors. -/

/-- Cluster state seen by the subcommand: integration Secret names present
in the installer namespace, plus the stored configuration ConfigMap. -/
structure SubcmdCluster where
  secrets : List String
  storedConfig : Option Config
deriving DecidableEq, Repr

/-- The integration Secret naming convention. -/
def secretName (appName integrationName : String) : String :=
  appName ++ "-" ++ integrationName ++ "-integration"

/-- `Integration.Exists`: the active integration's Secret is in the cluster. -/
def integrationExists (cl : SubcmdCluster) (appName integ : String) : Bool :=
  cl.secrets.contains (secretName appName integ)

/-- `Collection.GetProductNameForIntegration`: the product name of the chart
declaring the integration in `integrations-provided`, or the empty string.
Modelled from the spec (the Collection source is not provided); the walk is
alphabetical. -/
def getProductNameForIntegration (col : List Chart) (integ : String) : String :=
  match (collectionWalk col).find? (fun c => c.integrationsProvided.contains integ) with
  | some c => c.productName
  | none => ""

/-- `Config.GetProduct`: find a product by name. -/
def getProduct (cfg : Config) (name : String) : Option Product :=
  cfg.products.find? (fun p => p.name == name)

/-- `Config.SetProduct`: replace the product with the given name. -/
def setProduct (cfg : Config) (name : String) (spec : Product) : Config :=
  { cfg with
    products := cfg.products.map (fun p => if p.name == name then spec else p) }

/-- `disableProductForIntegration`: when the active integration's Secret
exists, a product provides it, and that product is enabled, disable exactly
that product and update the configuration ConfigMap; otherwise leave
everything unchanged.  `none` models the error path of a missing product. -/
def disableProductForIntegration (appName : String) (col : List Chart)
    (cl : SubcmdCluster) (cfg : Config) (integ : String) :
    Option (Config × SubcmdCluster) :=
  if !integrationExists cl appName integ then some (cfg, cl)
  else
    let productName := getProductNameForIntegration col integ
    if productName == "" then some (cfg, cl)
    else
      match getProduct cfg productName with
      | none => none
      | some spec =>
        if !spec.enabled then some (cfg, cl)
        else
          let cfg' := setProduct cfg productName { spec with enabled := false }
          some (cfg', { cl with storedConfig := some cfg' })

/-- A Cobra command as the integration parent sees it: its name and its
aliases (`Name()` is the first word of `Use`; the modules register
single-word command names, embedded here as the name itself). -/
structure CobraCmd where
  nameStr : String
  aliases : List String
deriving DecidableEq, Repr

/-- A registered integration module: its name and the command it builds. -/
structure IntegrationModule where
  name : String
  cmd : CobraCmd
deriving DecidableEq, Repr

/-- `NewIntegration`'s per-module adjustment: when the command name differs
from the module name, rename the command and keep the original as an alias. -/
def adjustChild (modName : String) (c : CobraCmd) : CobraCmd :=
  if c.nameStr ≠ modName then
    { nameStr := modName, aliases := c.aliases ++ [c.nameStr] }
  else c

/-- The children of the integration parent command built by `NewIntegration`. -/
def newIntegrationChildren (mods : List IntegrationModule) : List CobraCmd :=
  mods.map (fun m => adjustChild m.name m.cmd)

/-! ### Concrete fixtures

Small concrete charts, maps and configurations used to instantiate the
theorems below (scenario-style data mirroring the repository's test charts). -/

/-- A product chart providing the `acs` integration. -/
def intP : Chart :=
  { name := "p", productName := "Prod P", integrationsProvided := ["acs"] }

/-- A chart requiring the `acs` integration. -/
def intQ : Chart :=
  { name := "q", integrationsRequired := some (.valid (.atom "acs")) }

/-- A chart declaring an unknown provided integration. -/
def chU : Chart :=
  { name := "u", productName := "Prod U", integrationsProvided := ["ghost"] }

/-- Cluster-seeded configured map: `quay` configured, `acs` and `nexus` not. -/
def intMap : ConfiguredMap := [("acs", false), ("quay", true), ("nexus", false)]

/-- The configured map after collecting the provisions of `intTopo`. -/
def intMapAfter : ConfiguredMap :=
  [("acs", true), ("quay", true), ("nexus", false)]

/-- Consumer before provider: `q` requires `acs`, `p` provides it later. -/
def intTopo : Topology := [⟨intQ, "ns"⟩, ⟨intP, "ns"⟩]

/-- The consumer alone: its provider is absent from the topology. -/
def qTopo : Topology := [⟨intQ, "ns"⟩]

/-- A topology whose only chart provides an unknown integration. -/
def uTopo : Topology := [⟨chU, "ns"⟩]

/-- Scenario-A charts: a linear `depends-on` chain with one product. -/
def chA : Chart := { name := "a" }

/-- Middle chart of the scenario-A chain. -/
def chB : Chart := { name := "b", dependsOn := ["a"] }

/-- Product chart of the scenario-A chain. -/
def chC : Chart := { name := "c", dependsOn := ["b"], productName := "P" }

/-- Scenario-A configuration: one product bound to `c`. -/
def cfgA : Config :=
  { products := [{ name := "P", enabled := true, productNamespace := "p-ns" }],
    installerNamespace := "sys" }

/-- The scenario-A collection. -/
def colA : List Chart := [chA, chB, chC]

/-- The scenario-A resolved topology. -/
def topoA : Topology := [⟨chA, "sys"⟩, ⟨chB, "sys"⟩, ⟨chC, "p-ns"⟩]

/-- Two product charts with equal weight and no dependency relation whose
products are declared in reverse alphabetical order. -/
def chZ : Chart := { name := "z", productName := "Prod Z" }

/-- The alphabetically smaller of the two tied product charts. -/
def chA2 : Chart := { name := "a2", productName := "Prod A2" }

/-- Configuration declaring `Prod Z` before `Prod A2`. -/
def cfgZA : Config :=
  { products :=
      [{ name := "Prod Z", enabled := true, productNamespace := "zn" },
       { name := "Prod A2", enabled := true, productNamespace := "an" }],
    installerNamespace := "sys" }

/-- The collection of the two tied product charts. -/
def colZA : List Chart := [chZ, chA2]

/-- Configuration for the subcommand scenario: one enabled product. -/
def cfgW : Config :=
  { products := [{ name := "Prod P", enabled := true, productNamespace := "pp" }],
    installerNamespace := "sys" }

/-- Cluster for the subcommand scenario: the `acs` Secret exists. -/
def clW : SubcmdCluster :=
  { secrets := [secretName "app" "acs"], storedConfig := none }

/-- The registered module of the alias scenario: module `tas` whose command
was originally named `trusted-artifact-signer`. -/
def tasModule : IntegrationModule :=
  { name := "tas", cmd := { nameStr := "trusted-artifact-signer", aliases := [] } }

/-! ### Lemmas on the configured map -/

theorem lookupB_cons (a : String × Bool) (m : ConfiguredMap) (j : String) :
    lookupB (a :: m) j = if a.1 = j then some a.2 else lookupB m j := by
  by_cases h : a.1 = j
  · rw [if_pos h]
    unfold lookupB
    rw [List.find?_cons_of_pos _ (by simp [h])]
    rfl
  · rw [if_neg h]
    unfold lookupB
    rw [List.find?_cons_of_neg _ (by simp [h])]

theorem lookupB_setB (m : ConfiguredMap) (k : String) (v : Bool) (j : String) :
    lookupB (setB m k v) j =
      if j = k then (lookupB m k).map (fun _ => v) else lookupB m j := by
  induction m with
  | nil => by_cases h : j = k <;> simp [setB, lookupB, h]
  | cons a m ih =>
    have hset : setB (a :: m) k v = (if a.1 = k then (a.1, v) else a) :: setB m k v := by
      by_cases hak : a.1 = k <;> simp [setB, hak]
    by_cases hjk : j = k
    · subst hjk
      by_cases hak : a.1 = j
      · simp [hset, hak, lookupB_cons]
      · simp [hset, hak, lookupB_cons, ih]
    · by_cases hak : a.1 = k
      · have hkj : ¬k = j := fun h => hjk h.symm
        simp [hset, hak, hjk, lookupB_cons, hkj, ih]
      · by_cases haj : a.1 = j
        · simp [hset, hak, hjk, lookupB_cons, haj]
        · simp [hset, hak, hjk, lookupB_cons, haj, ih]

/-- Monotone false-to-true evolution of the configured map. -/
def MapStep (m m' : ConfiguredMap) : Prop :=
  ∀ k, lookupB m' k = lookupB m k ∨
    (lookupB m k = some false ∧ lookupB m' k = some true)

theorem mapStep_refl (m : ConfiguredMap) : MapStep m m := fun _ => Or.inl rfl

theorem mapStep_trans {m₁ m₂ m₃ : ConfiguredMap}
    (h₁ : MapStep m₁ m₂) (h₂ : MapStep m₂ m₃) : MapStep m₁ m₃ := by
  intro k
  rcases h₂ k with h | ⟨hf, ht⟩
  · rcases h₁ k with h' | ⟨hf', ht'⟩
    · exact Or.inl (h.trans h')
    · exact Or.inr ⟨hf', h.trans ht'⟩
  · rcases h₁ k with h' | ⟨hf', ht'⟩
    · exact Or.inr ⟨h'.symm.trans hf, ht⟩
    · rw [ht'] at hf
      exact absurd hf (by simp)

theorem mapStep_isSome {m m' : ConfiguredMap} (h : MapStep m m') (k : String) :
    (lookupB m' k).isSome = (lookupB m k).isSome := by
  rcases h k with h' | ⟨hf, ht⟩
  · rw [h']
  · rw [hf, ht]
    rfl

theorem mapStep_true {m m' : ConfiguredMap} (h : MapStep m m') {k : String}
    (ht : lookupB m k = some true) : lookupB m' k = some true := by
  rcases h k with h' | ⟨hf, _⟩
  · rw [h', ht]
  · rw [ht] at hf
    exact absurd hf (by simp)

theorem mapStep_setB_true {m : ConfiguredMap} {k : String}
    (h : lookupB m k = some false) : MapStep m (setB m k true) := by
  intro j
  rw [lookupB_setB]
  by_cases hj : j = k
  · subst hj
    rw [if_pos rfl, h]
    exact Or.inr ⟨rfl, rfl⟩
  · rw [if_neg hj]
    exact Or.inl rfl

/-! ### Pass 1 lemmas -/

theorem provideAll_step {c pr : String} :
    ∀ (ps : List String) (m m' : ConfiguredMap),
      provideAll c pr m ps = .ok m' → MapStep m m'
  | [], m, m', h => by
    simp only [provideAll] at h
    cases h; exact mapStep_refl m
  | p :: ps, m, m', h => by
    simp only [provideAll] at h
    cases hl : lookupB m p with
    | none => rw [hl] at h; cases h
    | some b =>
      cases b with
      | true =>
        rw [hl] at h
        exact provideAll_step ps m m' h
      | false =>
        rw [hl] at h
        exact mapStep_trans (mapStep_setB_true hl) (provideAll_step ps _ m' h)

theorem provideAll_lookup {c pr : String} :
    ∀ (ps : List String) (m m' : ConfiguredMap),
      provideAll c pr m ps = .ok m' →
      ∀ k, lookupB m' k = (lookupB m k).map (fun b => b || ps.contains k)
  | [], m, m', h => by
    simp only [provideAll] at h
    cases h
    intro k
    cases lookupB m k <;> simp
  | p :: ps, m, m', h => by
    simp only [provideAll] at h
    intro k
    cases hl : lookupB m p with
    | none => rw [hl] at h; cases h
    | some b =>
      cases b with
      | true =>
        rw [hl] at h
        have ih := provideAll_lookup ps m m' h k
        by_cases hk : k = p
        · subst hk
          rw [ih, hl]
          simp [List.contains_cons]
        · rw [ih]
          simp [List.contains_cons, beq_iff_eq, hk]
      | false =>
        rw [hl] at h
        have ih := provideAll_lookup ps (setB m p true) m' h k
        rw [ih, lookupB_setB]
        by_cases hk : k = p
        · subst hk
          rw [hl]
          simp [List.contains_cons]
        · simp [hk, List.contains_cons, beq_iff_eq]

theorem provideAll_ok (c pr : String) :
    ∀ (ps : List String) (m : ConfiguredMap),
      (∀ q ∈ ps, (lookupB m q).isSome = true) →
      ∃ m', provideAll c pr m ps = .ok m'
  | [], m, _ => ⟨m, rfl⟩
  | p :: ps, m, h => by
    have hp : (lookupB m p).isSome = true := h p (by simp)
    cases hl : lookupB m p with
    | none => rw [hl] at hp; cases hp
    | some b =>
      cases b with
      | true =>
        obtain ⟨m', hm'⟩ := provideAll_ok c pr ps m
          (fun q hq => h q (by simp [hq]))
        exact ⟨m', by simp only [provideAll, hl]; exact hm'⟩
      | false =>
        have hstep := mapStep_setB_true hl
        obtain ⟨m', hm'⟩ := provideAll_ok c pr ps (setB m p true)
          (fun q hq => by rw [mapStep_isSome hstep]; exact h q (by simp [hq]))
        exact ⟨m', by simp only [provideAll, hl]; exact hm'⟩

theorem provideAll_fixed {c pr : String} :
    ∀ (ps : List String) (m : ConfiguredMap),
      (∀ q ∈ ps, lookupB m q = some true) →
      provideAll c pr m ps = .ok m
  | [], _, _ => rfl
  | p :: ps, m, h => by
    have hp : lookupB m p = some true := h p (by simp)
    simp only [provideAll, hp]
    exact provideAll_fixed ps m (fun q hq => h q (by simp [hq]))

theorem pass1_step :
    ∀ (t : Topology) (m m' : ConfiguredMap), pass1 m t = .ok m' → MapStep m m'
  | [], m, m', h => by
    simp only [pass1] at h; cases h; exact mapStep_refl m
  | d :: ds, m, m', h => by
    simp only [pass1] at h
    cases hp : provideAll d.chart.name d.chart.productName m
        d.chart.integrationsProvided with
    | error e => rw [hp] at h; cases h
    | ok m₁ =>
      rw [hp] at h
      exact mapStep_trans (provideAll_step _ m m₁ hp) (pass1_step ds m₁ m' h)

theorem pass1_lookup :
    ∀ (t : Topology) (m m' : ConfiguredMap), pass1 m t = .ok m' →
      ∀ k, lookupB m' k = (lookupB m k).map (fun b => b || providedIn t k)
  | [], m, m', h => by
    simp only [pass1] at h
    cases h
    intro k
    cases lookupB m k <;> simp [providedIn]
  | d :: ds, m, m', h => by
    simp only [pass1] at h
    intro k
    cases hp : provideAll d.chart.name d.chart.productName m
        d.chart.integrationsProvided with
    | error e => rw [hp] at h; cases h
    | ok m₁ =>
      rw [hp] at h
      have h₁ := provideAll_lookup _ m m₁ hp k
      have h₂ := pass1_lookup ds m₁ m' h k
      rw [h₂, h₁]
      cases lookupB m k with
      | none => rfl
      | some b =>
        simp [providedIn, List.any_cons, Bool.or_assoc]

theorem provideAll_known {c pr : String} :
    ∀ (ps : List String) (m m' : ConfiguredMap),
      provideAll c pr m ps = .ok m' → ∀ q ∈ ps, (lookupB m q).isSome = true
  | [], _, _, _, q, hq => absurd hq (List.not_mem_nil q)
  | p :: ps, m, m', h, q, hq => by
    simp only [provideAll] at h
    cases hl : lookupB m p with
    | none => rw [hl] at h; cases h
    | some b =>
      rcases List.mem_cons.mp hq with rfl | hq'
      · rw [hl]; rfl
      · cases b with
        | true =>
          rw [hl] at h
          exact provideAll_known ps m m' h q hq'
        | false =>
          rw [hl] at h
          have := provideAll_known ps (setB m p true) m' h q hq'
          rwa [mapStep_isSome (mapStep_setB_true hl)] at this

theorem pass1_known :
    ∀ (t : Topology) (m m' : ConfiguredMap), pass1 m t = .ok m' →
      KnownProvided m t
  | [], _, _, _ => by intro d hd; cases hd
  | d :: ds, m, m', h => by
    simp only [pass1] at h
    cases hp : provideAll d.chart.name d.chart.productName m
        d.chart.integrationsProvided with
    | error e => rw [hp] at h; cases h
    | ok m₁ =>
      rw [hp] at h
      intro d' hd' q hq
      rcases List.mem_cons.mp hd' with rfl | hd'
      · exact provideAll_known _ m m₁ hp q hq
      · have := pass1_known ds m₁ m' h d' hd' q hq
        rwa [mapStep_isSome (provideAll_step _ m m₁ hp) q] at this

theorem provideAll_true {c pr : String} :
    ∀ (ps : List String) (m m' : ConfiguredMap),
      provideAll c pr m ps = .ok m' → ∀ q ∈ ps, lookupB m' q = some true
  | [], _, _, _, q, hq => absurd hq (List.not_mem_nil q)
  | p :: ps, m, m', h, q, hq => by
    simp only [provideAll] at h
    cases hl : lookupB m p with
    | none => rw [hl] at h; cases h
    | some b =>
      cases b with
      | true =>
        rw [hl] at h
        rcases List.mem_cons.mp hq with rfl | hq'
        · exact mapStep_true (provideAll_step ps m m' h) hl
        · exact provideAll_true ps m m' h q hq'
      | false =>
        rw [hl] at h
        rcases List.mem_cons.mp hq with rfl | hq'
        · refine mapStep_true (provideAll_step ps _ m' h) ?_
          rw [lookupB_setB, if_pos rfl, hl]
          rfl
        · exact provideAll_true ps _ m' h q hq'

theorem pass1_true :
    ∀ (t : Topology) (m m' : ConfiguredMap), pass1 m t = .ok m' →
      ∀ d ∈ t, ∀ q ∈ d.chart.integrationsProvided, lookupB m' q = some true
  | [], _, _, _, d, hd, _, _ => absurd hd (List.not_mem_nil d)
  | d :: ds, m, m', h, d', hd', q, hq => by
    simp only [pass1] at h
    cases hp : provideAll d.chart.name d.chart.productName m
        d.chart.integrationsProvided with
    | error e => rw [hp] at h; cases h
    | ok m₁ =>
      rw [hp] at h
      rcases List.mem_cons.mp hd' with rfl | hd'
      · exact mapStep_true (pass1_step ds m₁ m' h) (provideAll_true _ m m₁ hp q hq)
      · exact pass1_true ds m₁ m' h d' hd' q hq

theorem pass1_fixed :
    ∀ (t : Topology) (m : ConfiguredMap),
      (∀ d ∈ t, ∀ q ∈ d.chart.integrationsProvided, lookupB m q = some true) →
      pass1 m t = .ok m
  | [], _, _ => rfl
  | d :: ds, m, h => by
    have hall : provideAll d.chart.name d.chart.productName m
        d.chart.integrationsProvided = .ok m :=
      provideAll_fixed _ m (fun q hq => h d (by simp) q hq)
    simp only [pass1, hall]
    exact pass1_fixed ds m (fun d' hd' q hq => h d' (by simp [hd']) q hq)

theorem pass1_ok :
    ∀ (t : Topology) (m : ConfiguredMap), KnownProvided m t →
      ∃ m', pass1 m t = .ok m'
  | [], m, _ => ⟨m, rfl⟩
  | d :: ds, m, h => by
    obtain ⟨m₁, hm₁⟩ := provideAll_ok d.chart.name d.chart.productName
      d.chart.integrationsProvided m (fun q hq => h d (by simp) q hq)
    have hstep := provideAll_step _ m m₁ hm₁
    obtain ⟨m', hm'⟩ := pass1_ok ds m₁ (fun d' hd' q hq => by
      rw [mapStep_isSome hstep]
      exact h d' (by simp [hd']) q hq)
    exact ⟨m', by simp only [pass1, hm₁]; exact hm'⟩

theorem pass1_append :
    ∀ (l₁ l₂ : Topology) (m : ConfiguredMap),
      pass1 m (l₁ ++ l₂) =
        match pass1 m l₁ with
        | .error e => .error e
        | .ok m' => pass1 m' l₂
  | [], _, _ => rfl
  | d :: ds, l₂, m => by
    simp only [List.cons_append, pass1]
    cases provideAll d.chart.name d.chart.productName m
        d.chart.integrationsProvided with
    | error e => rfl
    | ok m₁ => exact pass1_append ds l₂ m₁

theorem provideAll_append {c pr : String} :
    ∀ (l₁ l₂ : List String) (m : ConfiguredMap),
      provideAll c pr m (l₁ ++ l₂) =
        match provideAll c pr m l₁ with
        | .error e => .error e
        | .ok m' => provideAll c pr m' l₂
  | [], _, _ => rfl
  | p :: ps, l₂, m => by
    simp only [List.cons_append, provideAll]
    cases lookupB m p with
    | none => rfl
    | some b =>
      cases b with
      | true => exact provideAll_append ps l₂ m
      | false => exact provideAll_append ps l₂ (setB m p true)

/-! ### Pass 2 lemmas -/

theorem pass2_ok_iff (m : ConfiguredMap) :
    ∀ t : Topology, pass2 m t = .ok () ↔ ∀ d ∈ t, pass2Chart m d = .ok ()
  | [] => by simp [pass2]
  | d :: ds => by
    simp only [pass2]
    cases hc : pass2Chart m d with
    | error e =>
      simp only [List.mem_cons]
      constructor
      · intro h; cases h
      · intro h
        have := h d (Or.inl rfl)
        rw [hc] at this
        cases this
    | ok u =>
      cases u
      rw [pass2_ok_iff m ds]
      constructor
      · intro h d' hd'
        rcases List.mem_cons.mp hd' with rfl | hd'
        · exact hc
        · exact h d' hd'
      · intro h d' hd'
        exact h d' (by simp [hd'])

theorem pass2Chart_ok_iff (m : ConfiguredMap) (d : Dependency) :
    pass2Chart m d = .ok () ↔ requirementHolds (envOf m) d = true := by
  unfold pass2Chart requirementHolds
  cases d.chart.integrationsRequired with
  | none => simp
  | some src =>
    cases src with
    | invalid msg => simp [celEvaluate]
    | valid e =>
      simp only [celEvaluate]
      cases he : celEval (envOf m) e <;> simp [he]

theorem pass2_append_error (m : ConfiguredMap) (d : Dependency)
    (post : List Dependency) (e : InspectError) (he : pass2Chart m d = .error e) :
    ∀ pre : List Dependency, (∀ d' ∈ pre, pass2Chart m d' = .ok ()) →
      pass2 m (pre ++ d :: post) = .error e
  | [], _ => by simp [pass2, he]
  | d' :: pre, h => by
    have hd' : pass2Chart m d' = .ok () := h d' (by simp)
    simp only [List.cons_append, pass2, hd']
    exact pass2_append_error m d post e he pre (fun x hx => h x (by simp [hx]))

/-! ### CEL evaluation lemmas -/

theorem celEval_congr {env₁ env₂ : String → Bool} :
    ∀ e : CELExpr, (∀ n ∈ e.atoms, env₁ n = env₂ n) →
      celEval env₁ e = celEval env₂ e
  | .atom n, h => h n (by simp [CELExpr.atoms])
  | .and a b, h => by
    simp only [celEval]
    rw [celEval_congr a (fun n hn => h n (by simp [CELExpr.atoms, hn])),
      celEval_congr b (fun n hn => h n (by simp [CELExpr.atoms, hn]))]
  | .or a b, h => by
    simp only [celEval]
    rw [celEval_congr a (fun n hn => h n (by simp [CELExpr.atoms, hn])),
      celEval_congr b (fun n hn => h n (by simp [CELExpr.atoms, hn]))]
  | .not e, h => by
    simp only [celEval]
    rw [celEval_congr e (fun n hn => h n (by simp [CELExpr.atoms, hn]))]

/-- After a successful pass 1, the configured map reads exactly as the
combined mapping (cluster-configured union chart-provided). -/
theorem pass1_env (m m' : ConfiguredMap) (t : Topology)
    (h : pass1 m t = .ok m') : envOf m' = combinedEnv m t := by
  funext n
  have hl := pass1_lookup t m m' h n
  have hknown := pass1_known t m m' h
  simp only [envOf, combinedEnv]
  rw [hl]
  cases hm : lookupB m n with
  | some b => simp
  | none =>
    have hprov : providedIn t n = false := by
      by_contra hp
      rw [Bool.not_eq_false, providedIn, List.any_eq_true] at hp
      obtain ⟨d, hd, hc⟩ := hp
      have hx := hknown d hd n (by
        simpa using hc)
      rw [hm] at hx
      cases hx
    simp [hprov]

theorem knownProvided_perm {m : ConfiguredMap} {t t' : Topology}
    (hp : t.Perm t') (h : KnownProvided m t) : KnownProvided m t' :=
  fun d hd => h d (hp.mem_iff.mpr hd)

theorem providedIn_perm {t t' : Topology} (hp : t.Perm t') (k : String) :
    providedIn t k = providedIn t' k := by
  unfold providedIn
  rcases hb : t'.any (fun d => d.chart.integrationsProvided.contains k) with _ | _
  · rw [Bool.eq_false_iff]
    intro hc
    rw [List.any_eq_true] at hc
    obtain ⟨d, hd, hdc⟩ := hc
    rw [Bool.eq_false_iff] at hb
    exact hb (List.any_eq_true.mpr ⟨d, hp.mem_iff.mp hd, hdc⟩)
  · rw [List.any_eq_true] at hb ⊢
    obtain ⟨d, hd, hdc⟩ := hb
    exact ⟨d, hp.mem_iff.mpr hd, hdc⟩

theorem combinedEnv_perm {m : ConfiguredMap} {t t' : Topology}
    (hp : t.Perm t') : combinedEnv m t = combinedEnv m t' := by
  funext k
  unfold combinedEnv
  rw [providedIn_perm hp]

/-- Under a topology whose provided names are all known, `Inspect` accepts
iff every chart's requirement evaluates to true against the combined
mapping. -/
theorem inspect_ok_iff (m : ConfiguredMap) (t : Topology)
    (hknown : KnownProvided m t) :
    Inspect m t = .ok () ↔
      ∀ d ∈ t, requirementHolds (combinedEnv m t) d = true := by
  obtain ⟨m', hm'⟩ := pass1_ok t m hknown
  have henv := pass1_env m m' t hm'
  unfold Inspect
  rw [hm']
  rw [pass2_ok_iff]
  constructor
  · intro h d hd
    have hc := (pass2Chart_ok_iff m' d).mp (h d hd)
    rwa [henv] at hc
  · intro h d hd
    refine (pass2Chart_ok_iff m' d).mpr ?_
    rw [henv]
    exact h d hd

/-- C1 (amended): provided every `integrations-provided` name in the
topology is known, `Integrations.Inspect` accepts iff, for every chart
whose requirement is non-empty, the requirement evaluates to true against
the combined mapping (cluster-configured union provided-by-any-chart); in
particular acceptance is invariant under permuting the topology, so it does
not depend on whether a provider appears before or after a consumer. -/
theorem inspect_accepts_iff_combined (m : ConfiguredMap) (t : Topology)
    (hknown : KnownProvided m t) :
    (Inspect m t = .ok () ↔
      ∀ d ∈ t, requirementHolds (combinedEnv m t) d = true) ∧
    (∀ t', t.Perm t' → (Inspect m t = .ok () ↔ Inspect m t' = .ok ())) := by
  refine ⟨inspect_ok_iff m t hknown, fun t' hperm => ?_⟩
  rw [inspect_ok_iff m t hknown,
    inspect_ok_iff m t' (knownProvided_perm hperm hknown)]
  have hce := combinedEnv_perm (m := m) hperm
  constructor
  · intro h d hd
    rw [← hce]
    exact h d (hperm.mem_iff.mpr hd)
  · intro h d hd
    rw [hce]
    exact h d (hperm.mem_iff.mp hd)

/-- C1 (counterexample): without the known-provided proviso the biconditional
fails: a topology whose only chart declares an unknown provided integration
is rejected by `Inspect` although every requirement evaluates to true. -/
theorem inspect_accepts_iff_unconditional_false :
    ¬(Inspect intMap uTopo = .ok () ↔
        ∀ d ∈ uTopo, requirementHolds (combinedEnv intMap uTopo) d = true) := by
  decide

/-- C1 (witness): the provider-after-consumer topology with all provided
names known. -/
theorem inspect_accepts_iff_combined_witness :
    (Inspect intMap intTopo = .ok () ↔
      ∀ d ∈ intTopo, requirementHolds (combinedEnv intMap intTopo) d = true) ∧
    (∀ t', intTopo.Perm t' →
      (Inspect intMap intTopo = .ok () ↔ Inspect intMap t' = .ok ())) :=
  inspect_accepts_iff_combined intMap intTopo (by unfold KnownProvided; decide)

/-- C5: pass 1 of `Integrations.Inspect` is idempotent: re-running it over
the same topology returns the configured map unchanged, and every update it
makes is a false-to-true transition only. -/
theorem pass1_idempotent (m m' : ConfiguredMap) (t : Topology)
    (h : pass1 m t = .ok m') :
    pass1 m' t = .ok m' ∧
    ∀ k, lookupB m' k = lookupB m k ∨
      (lookupB m k = some false ∧ lookupB m' k = some true) :=
  ⟨pass1_fixed t m' (fun d hd q hq => pass1_true t m m' h d hd q hq),
    pass1_step t m m' h⟩

/-- C5 (witness): pass 1 over the provider topology from the seeded map. -/
theorem pass1_idempotent_witness :
    pass1 intMapAfter intTopo = .ok intMapAfter ∧
    ∀ k, lookupB intMapAfter k = lookupB intMap k ∨
      (lookupB intMap k = some false ∧ lookupB intMapAfter k = some true) :=
  pass1_idempotent intMap intMapAfter intTopo (by decide)

/-- C6: in pass 2, the first chart whose non-empty requirement evaluates to
false makes `Inspect` fail with `PrerequisiteIntegration` naming the chart,
the expression, and exactly the identifiers appearing in the expression
whose current value is false; an invalid expression instead fails with
`InvalidExpression` naming the chart, the expression and the cause. -/
theorem inspect_pass2_errors (m m' : ConfiguredMap) (t : Topology)
    (pre post : List Dependency) (d : Dependency)
    (h1 : pass1 m t = .ok m') (h2 : t = pre ++ d :: post)
    (h3 : ∀ x ∈ pre, pass2Chart m' x = .ok ()) :
    (∀ e, d.chart.integrationsRequired = some (.valid e) →
        celEval (envOf m') e = false →
        Inspect m t = .error
          (.prerequisiteIntegration d.chart.name (.valid e) (falseAtoms m' e)) ∧
        ∀ n, n ∈ falseAtoms m' e ↔ n ∈ e.atoms ∧ envOf m' n = false) ∧
    (∀ msg, d.chart.integrationsRequired = some (.invalid msg) →
        Inspect m t = .error (.invalidExpression d.chart.name (.invalid msg) msg)) := by
  constructor
  · intro e hreq hcel
    have hch : pass2Chart m' d = .error
        (.prerequisiteIntegration d.chart.name (.valid e) (falseAtoms m' e)) := by
      unfold pass2Chart
      rw [hreq]
      simp [celEvaluate, hcel]
    constructor
    · unfold Inspect
      rw [h1, h2]
      exact pass2_append_error m' d post _ hch pre h3
    · intro n
      simp [falseAtoms, List.mem_filter]
  · intro msg hreq
    have hch : pass2Chart m' d = .error
        (.invalidExpression d.chart.name (.invalid msg) msg) := by
      unfold pass2Chart
      rw [hreq]
      simp [celEvaluate]
    unfold Inspect
    rw [h1, h2]
    exact pass2_append_error m' d post _ hch pre h3

/-- C6 (witness): the consumer without its provider fails with
`PrerequisiteIntegration` naming chart `q`, expression `acs`, and missing
set `acs`. -/
theorem inspect_pass2_errors_witness :
    Inspect intMap qTopo = .error
      (.prerequisiteIntegration "q" (.valid (.atom "acs"))
        (falseAtoms intMap (.atom "acs"))) ∧
    ∀ n, n ∈ falseAtoms intMap (.atom "acs") ↔
      n ∈ (CELExpr.atom "acs").atoms ∧ envOf intMap n = false :=
  (inspect_pass2_errors intMap intMap qTopo [] [] ⟨intQ, "ns"⟩ (by decide) rfl
    (by simp)).1 (.atom "acs") rfl (by decide)

/-- C7: in pass 1, a chart declaring an `integrations-provided` name that is
not a known integration makes `Inspect` abort with `UnknownIntegration`
naming the integration, the declaring chart, and the chart's product. -/
theorem inspect_pass1_unknown (m m₁ : ConfiguredMap) (t : Topology)
    (pre post : List Dependency) (d : Dependency) (pp rest : List String)
    (p : String)
    (h1 : t = pre ++ d :: post) (h2 : pass1 m pre = .ok m₁)
    (h3 : d.chart.integrationsProvided = pp ++ p :: rest)
    (h4 : ∀ q ∈ pp, (lookupB m q).isSome = true) (h5 : lookupB m p = none) :
    Inspect m t = .error (.unknownIntegration p d.chart.name d.chart.productName) := by
  subst h1
  have hstep1 := pass1_step pre m m₁ h2
  obtain ⟨m₂, hm₂⟩ := provideAll_ok d.chart.name d.chart.productName pp m₁
    (fun q hq => by rw [mapStep_isSome hstep1]; exact h4 q hq)
  have hstep2 := provideAll_step pp m₁ m₂ hm₂
  have h5' : lookupB m₂ p = none := by
    have hs : (lookupB m₂ p).isSome = (lookupB m p).isSome := by
      rw [mapStep_isSome hstep2, mapStep_isSome hstep1]
    rw [h5] at hs
    cases hx : lookupB m₂ p with
    | none => rfl
    | some v =>
      rw [hx] at hs
      cases hs
  have herr : provideAll d.chart.name d.chart.productName m₁ (pp ++ p :: rest)
      = .error (.unknownIntegration p d.chart.name d.chart.productName) := by
    rw [provideAll_append, hm₂]
    show provideAll _ _ m₂ (p :: rest) = _
    simp only [provideAll, h5']
  have hp1 : pass1 m (pre ++ d :: post)
      = .error (.unknownIntegration p d.chart.name d.chart.productName) := by
    rw [pass1_append, h2]
    show pass1 m₁ (d :: post) = _
    simp only [pass1]
    rw [h3, herr]
  unfold Inspect
  rw [hp1]

/-- C7 (witness): the chart `u` provides the unknown integration `ghost`;
`Inspect` aborts with `UnknownIntegration` naming `ghost`, `u`, `Prod U`. -/
theorem inspect_pass1_unknown_witness :
    Inspect intMap uTopo = .error (.unknownIntegration "ghost" "u" "Prod U") :=
  inspect_pass1_unknown intMap intMap uTopo [] [] ⟨chU, "ns"⟩ [] [] "ghost"
    rfl rfl rfl (by simp) (by decide)

/-! ### Resolver lemmas -/

theorem topoNames_append (l₁ l₂ : Topology) :
    topoNames (l₁ ++ l₂) = topoNames l₁ ++ topoNames l₂ := by
  simp [topoNames]

theorem topoStep_refl (vis : List String) (topo : Topology) :
    TopoStep vis topo topo :=
  ⟨⟨[], by simp⟩, fun _ hn => Or.inl hn, id, fun _ h => h⟩

theorem topoStep_trans {vis : List String} {t₁ t₂ t₃ : Topology}
    (h₁ : TopoStep vis t₁ t₂) (h₂ : TopoStep vis t₂ t₃) : TopoStep vis t₁ t₃ := by
  obtain ⟨⟨n₁, rfl⟩, hv₁, hd₁, hc₁⟩ := h₁
  obtain ⟨⟨n₂, rfl⟩, hv₂, hd₂, hc₂⟩ := h₂
  refine ⟨⟨n₁ ++ n₂, by simp⟩, ?_, fun h => hd₂ (hd₁ h), fun seen h => hc₂ seen (hc₁ seen h)⟩
  intro n hn
  rcases hv₂ n hn with h | h
  · exact hv₁ n h
  · exact Or.inr h

theorem topoStep_names_mono {vis : List String} {t₁ t₂ : Topology}
    (h : TopoStep vis t₁ t₂) : ∀ n ∈ topoNames t₁, n ∈ topoNames t₂ := by
  obtain ⟨⟨new, rfl⟩, _, _, _⟩ := h
  intro n hn
  rw [topoNames_append]
  exact List.mem_append_left _ hn

theorem topoStep_weaken {v : String} {vis : List String} {t₁ t₂ : Topology}
    (h : TopoStep (v :: vis) t₁ t₂) : TopoStep vis t₁ t₂ := by
  obtain ⟨hext, hv, hd, hc⟩ := h
  refine ⟨hext, ?_, hd, hc⟩
  intro n hn
  rcases hv n hn with h | h
  · exact Or.inl h
  · exact Or.inr (fun hmem => h (List.mem_cons_of_mem v hmem))

theorem depsClosedFrom_append :
    ∀ (l : Topology) (seen : List String) (d : Dependency),
      DepsClosedFrom seen (l ++ [d]) ↔
        DepsClosedFrom seen l ∧
          ∀ n ∈ d.chart.dependsOn, n ∈ seen ++ topoNames l
  | [], seen, d => by simp [DepsClosedFrom, topoNames]
  | x :: l, seen, d => by
    simp only [List.cons_append, DepsClosedFrom, List.append_eq]
    rw [depsClosedFrom_append l (seen ++ [x.chart.name]) d]
    constructor
    · rintro ⟨h₁, h₂, h₃⟩
      refine ⟨⟨h₁, h₂⟩, fun n hn => ?_⟩
      have := h₃ n hn
      simp only [topoNames, List.map_cons, List.mem_append, List.mem_cons,
        List.mem_singleton] at this ⊢
      tauto
    · rintro ⟨⟨h₁, h₂⟩, h₃⟩
      refine ⟨h₁, h₂, fun n hn => ?_⟩
      have := h₃ n hn
      simp only [topoNames, List.map_cons, List.mem_append, List.mem_cons,
        List.mem_singleton] at this ⊢
      tauto

theorem depsClosedFrom_index :
    ∀ (l : Topology) (seen : List String), DepsClosedFrom seen l →
      ∀ (i : Nat) (hi : i < l.length), ∀ n ∈ (l.get ⟨i, hi⟩).chart.dependsOn,
        n ∈ seen ∨
          ∃ j, ∃ hj : j < l.length, j < i ∧ (l.get ⟨j, hj⟩).chart.name = n
  | [], _, _, i, hi => absurd hi (by simp)
  | x :: l, seen, h, 0, _ => fun n hn => Or.inl (h.1 n hn)
  | x :: l, seen, h, i + 1, hi => fun n hn => by
    have hi' : i < l.length := Nat.lt_of_succ_lt_succ hi
    have hrec := depsClosedFrom_index l (seen ++ [x.chart.name]) h.2 i hi' n hn
    rcases hrec with hmem | ⟨j, hj, hji, hname⟩
    · rcases List.mem_append.mp hmem with h' | h'
      · exact Or.inl h'
      · refine Or.inr ⟨0, Nat.succ_pos _, Nat.succ_pos i, ?_⟩
        exact (List.mem_singleton.mp h').symm
    · exact Or.inr ⟨j + 1, Nat.succ_lt_succ hj, Nat.succ_lt_succ hji, hname⟩

theorem lookupChart_some {col : List Chart} {n : String} {c : Chart}
    (h : lookupChart col n = some c) : c ∈ col ∧ c.name = n := by
  refine ⟨List.mem_of_find?_eq_some h, ?_⟩
  have := List.find?_some h
  simpa [beq_iff_eq] using this

theorem lookupDeps_names {col : List Chart} {r : String} :
    ∀ (ns : List String) (cs : List Chart),
      lookupDeps col r ns = .ok cs → cs.map (fun c => c.name) = ns
  | [], cs, h => by
    simp only [lookupDeps] at h
    cases h
    rfl
  | n :: ns, cs, h => by
    simp only [lookupDeps] at h
    cases hl : lookupChart col n with
    | none => rw [hl] at h; cases h
    | some c =>
      rw [hl] at h
      cases hr : lookupDeps col r ns with
      | error e => rw [hr] at h; cases h
      | ok cs' =>
        rw [hr] at h
        cases h
        simp only [List.map_cons]
        rw [lookupDeps_names ns cs' hr, (lookupChart_some hl).2]

theorem lookupDeps_mem {col : List Chart} {r : String} :
    ∀ (ns : List String) (cs : List Chart),
      lookupDeps col r ns = .ok cs → ∀ x ∈ cs, x ∈ col
  | [], cs, h => by
    simp only [lookupDeps] at h
    cases h
    intro x hx
    cases hx
  | n :: ns, cs, h => by
    simp only [lookupDeps] at h
    cases hl : lookupChart col n with
    | none => rw [hl] at h; cases h
    | some c =>
      rw [hl] at h
      cases hr : lookupDeps col r ns with
      | error e => rw [hr] at h; cases h
      | ok cs' =>
        rw [hr] at h
        cases h
        intro x hx
        rcases List.mem_cons.mp hx with rfl | hx'
        · exact (lookupChart_some hl).1
        · exact lookupDeps_mem ns cs' hr x hx'

theorem sortChildren_perm (l : List Chart) : (sortChildren l).Perm l :=
  List.perm_insertionSort childLe l

theorem collectionWalk_perm (col : List Chart) : (collectionWalk col).Perm col :=
  List.perm_insertionSort chartNameLe col

theorem resolveChildrenWith_inv (col : List Chart) (vis : List String)
    (f : Topology → Chart → Except ResolveError Topology)
    (hf : ∀ topo c topo', f topo c = .ok topo' →
      TopoStep vis topo topo' ∧ c.name ∈ topoNames topo' ∧
      ∀ d ∈ topo', d ∈ topo ∨ d.chart ∈ col ∨ d.chart = c) :
    ∀ (l : List Chart) (topo topo' : Topology),
      resolveChildrenWith f topo l = .ok topo' →
      TopoStep vis topo topo' ∧ (∀ ch ∈ l, ch.name ∈ topoNames topo') ∧
      ∀ d ∈ topo', d ∈ topo ∨ d.chart ∈ col ∨ d.chart ∈ l
  | [], topo, topo', h => by
    simp only [resolveChildrenWith] at h
    cases h
    exact ⟨topoStep_refl _ _, by simp, fun d hd => Or.inl hd⟩
  | ch :: rest, topo, topo', h => by
    simp only [resolveChildrenWith] at h
    cases hf₁ : f topo ch with
    | error e => rw [hf₁] at h; cases h
    | ok topo₁ =>
      rw [hf₁] at h
      obtain ⟨hstep₁, hname₁, hsrc₁⟩ := hf topo ch topo₁ hf₁
      obtain ⟨hstep₂, hnames₂, hsrc₂⟩ :=
        resolveChildrenWith_inv col vis f hf rest topo₁ topo' h
      refine ⟨topoStep_trans hstep₁ hstep₂, ?_, ?_⟩
      · intro c hc
        rcases List.mem_cons.mp hc with rfl | hc'
        · exact topoStep_names_mono hstep₂ _ hname₁
        · exact hnames₂ c hc'
      · intro d hd
        rcases hsrc₂ d hd with h₁ | h₂ | h₃
        · rcases hsrc₁ d h₁ with g₁ | g₂ | g₃
          · exact Or.inl g₁
          · exact Or.inr (Or.inl g₂)
          · exact Or.inr (Or.inr (by rw [g₃]; exact List.mem_cons_self ch rest))
        · exact Or.inr (Or.inl h₂)
        · exact Or.inr (Or.inr (List.mem_cons_of_mem ch h₃))

theorem resolveChart_inv (cfg : Config) (col : List Chart) :
    ∀ (fuel : Nat) (vis : List String) (topo : Topology) (c : Chart)
      (topo' : Topology),
      resolveChart cfg col fuel vis topo c = .ok topo' →
      TopoStep vis topo topo' ∧ c.name ∈ topoNames topo' ∧
      ∀ d ∈ topo', d ∈ topo ∨ d.chart ∈ col ∨ d.chart = c := by
  intro fuel
  induction fuel with
  | zero =>
    intro vis topo c topo' h
    cases h
  | succ fuel ih =>
    intro vis topo c topo' h
    simp only [resolveChart] at h
    by_cases h₁ : (topoNames topo).contains c.name
    · rw [if_pos h₁] at h
      cases h
      exact ⟨topoStep_refl _ _, by simpa using h₁, fun d hd => Or.inl hd⟩
    · rw [if_neg h₁] at h
      by_cases h₂ : vis.contains c.name
      · rw [if_pos h₂] at h
        cases h
      · rw [if_neg h₂] at h
        split at h
        · cases h
        · rename_i children hld
          split at h
          · cases h
          · rename_i topo₁ hrc
            cases h
            have hnv : ¬c.name ∈ vis := by simpa using h₂
            have hnt : ¬c.name ∈ topoNames topo := by simpa using h₁
            obtain ⟨hstep, hchnames, hsrc⟩ :=
              resolveChildrenWith_inv col (c.name :: vis) _
                (fun tp ch tp' hh => ih (c.name :: vis) tp ch tp' hh)
                (sortChildren children) topo topo₁ hrc
            have hn₁ : ¬c.name ∈ topoNames topo₁ := by
              intro hmem
              rcases hstep.2.1 c.name hmem with h' | h'
              · exact hnt h'
              · exact h' (List.mem_cons_self _ _)
            have hdeps : ∀ n ∈ c.dependsOn, n ∈ topoNames topo₁ := by
              intro n hn
              rw [← lookupDeps_names c.dependsOn children hld] at hn
              obtain ⟨ch, hch, rfl⟩ := List.mem_map.mp hn
              exact hchnames ch ((sortChildren_perm children).mem_iff.mpr hch)
            refine ⟨⟨?_, ?_, ?_, ?_⟩, ?_, ?_⟩
            · obtain ⟨new, rfl⟩ := hstep.1
              exact ⟨new ++ [⟨c, chartNamespace cfg c⟩], by simp⟩
            · intro n hn
              rw [topoNames_append] at hn
              rcases List.mem_append.mp hn with h' | h'
              · rcases hstep.2.1 n h' with g | g
                · exact Or.inl g
                · exact Or.inr (fun hmem => g (List.mem_cons_of_mem _ hmem))
              · have : n = c.name := by
                  simpa [topoNames] using h'
                subst this
                exact Or.inr hnv
            · intro hnodup
              rw [topoNames_append]
              refine List.Nodup.append (hstep.2.2.1 hnodup) (by simp [topoNames]) ?_
              intro x hx hy
              simp only [topoNames, List.map_cons, List.map_nil,
                List.mem_singleton] at hy
              subst hy
              exact hn₁ hx
            · intro seen hcl
              rw [depsClosedFrom_append]
              refine ⟨hstep.2.2.2 seen hcl, fun n hn => ?_⟩
              exact List.mem_append_right _ (hdeps n hn)
            · rw [topoNames_append]
              refine List.mem_append_right _ ?_
              simp [topoNames]
            · intro d hd
              rcases List.mem_append.mp hd with h' | h'
              · rcases hsrc d h' with g₁ | g₂ | g₃
                · exact Or.inl g₁
                · exact Or.inr (Or.inl g₂)
                · refine Or.inr (Or.inl ?_)
                  exact lookupDeps_mem c.dependsOn children hld d.chart
                    ((sortChildren_perm children).mem_iff.mp g₃)
              · have : d = ⟨c, chartNamespace cfg c⟩ := List.mem_singleton.mp h'
                subst this
                exact Or.inr (Or.inr rfl)

theorem resolveProducts_inv (cfg : Config) (col : List Chart) (fuel : Nat) :
    ∀ (ps : List Product) (topo topo' : Topology),
      resolveProducts cfg col fuel topo ps = .ok topo' →
      TopoStep [] topo topo' ∧ ∀ d ∈ topo', d ∈ topo ∨ d.chart ∈ col
  | [], topo, topo', h => by
    simp only [resolveProducts] at h
    cases h
    exact ⟨topoStep_refl _ _, fun d hd => Or.inl hd⟩
  | p :: ps, topo, topo', h => by
    simp only [resolveProducts] at h
    by_cases hp : p.enabled
    · rw [if_pos hp] at h
      split at h
      · cases h
      · rename_i c hf
        split at h
        · cases h
        · rename_i topo₁ hrc
          obtain ⟨hstep₁, _, hsrc₁⟩ := resolveChart_inv cfg col fuel [] topo c topo₁ hrc
          obtain ⟨hstep₂, hsrc₂⟩ := resolveProducts_inv cfg col fuel ps topo₁ topo' h
          refine ⟨topoStep_trans hstep₁ hstep₂, fun d hd => ?_⟩
          rcases hsrc₂ d hd with h₁ | h₂
          · rcases hsrc₁ d h₁ with g₁ | g₂ | g₃
            · exact Or.inl g₁
            · exact Or.inr g₂
            · exact Or.inr (by rw [g₃]; exact List.mem_of_find?_eq_some hf)
          · exact Or.inr h₂
    · rw [if_neg hp] at h
      exact resolveProducts_inv cfg col fuel ps topo topo' h

theorem resolveRemaining_inv (cfg : Config) (col : List Chart) (fuel : Nat) :
    ∀ (cs : List Chart) (topo topo' : Topology),
      resolveRemaining cfg col fuel topo cs = .ok topo' →
      TopoStep [] topo topo' ∧ (∀ ch ∈ cs, ch.name ∈ topoNames topo') ∧
      ∀ d ∈ topo', d ∈ topo ∨ d.chart ∈ col ∨ d.chart ∈ cs
  | [], topo, topo', h => by
    simp only [resolveRemaining] at h
    cases h
    exact ⟨topoStep_refl _ _, by simp, fun d hd => Or.inl hd⟩
  | c :: cs, topo, topo', h => by
    simp only [resolveRemaining] at h
    split at h
    · cases h
    · rename_i topo₁ hrc
      obtain ⟨hstep₁, hname₁, hsrc₁⟩ := resolveChart_inv cfg col fuel [] topo c topo₁ hrc
      obtain ⟨hstep₂, hnames₂, hsrc₂⟩ := resolveRemaining_inv cfg col fuel cs topo₁ topo' h
      refine ⟨topoStep_trans hstep₁ hstep₂, ?_, ?_⟩
      · intro ch hch
        rcases List.mem_cons.mp hch with rfl | hch'
        · exact topoStep_names_mono hstep₂ _ hname₁
        · exact hnames₂ ch hch'
      · intro d hd
        rcases hsrc₂ d hd with h₁ | h₂ | h₃
        · rcases hsrc₁ d h₁ with g₁ | g₂ | g₃
          · exact Or.inl g₁
          · exact Or.inr (Or.inl g₂)
          · exact Or.inr (Or.inr (by rw [g₃]; exact List.mem_cons_self c cs))
        · exact Or.inr (Or.inl h₂)
        · exact Or.inr (Or.inr (List.mem_cons_of_mem c h₃))

/-- C2: on every successful resolution, the topology contains every chart of
the collection exactly once, every topology entry comes from the collection,
and every `depends-on` edge points to a strictly lower index.  (The resolver
is modelled from the spec; its Go source is not among the provided files.) -/
theorem resolve_invariants (cfg : Config) (col : List Chart) (topo : Topology)
    (h : Resolve cfg col = .ok topo) :
    (topoNames topo).Nodup ∧
    (∀ c ∈ col, c.name ∈ topoNames topo) ∧
    (∀ d ∈ topo, d.chart ∈ col) ∧
    ∀ (i : Nat) (hi : i < topo.length), ∀ n ∈ (topo.get ⟨i, hi⟩).chart.dependsOn,
      ∃ j, ∃ hj : j < topo.length, j < i ∧ (topo.get ⟨j, hj⟩).chart.name = n := by
  unfold Resolve at h
  split at h
  · cases h
  · rename_i topo₁ hp
    obtain ⟨hstepA, hsrcA⟩ := resolveProducts_inv cfg (collectionWalk col) _
      cfg.products [] topo₁ hp
    obtain ⟨hstepB, hnamesB, hsrcB⟩ := resolveRemaining_inv cfg (collectionWalk col) _
      (collectionWalk col) topo₁ topo h
    have hperm := collectionWalk_perm col
    have hnodup : (topoNames topo).Nodup := by
      refine hstepB.2.2.1 (hstepA.2.2.1 ?_)
      simp [topoNames]
    have hclosed : DepsClosedFrom [] topo := by
      refine hstepB.2.2.2 [] (hstepA.2.2.2 [] ?_)
      simp [DepsClosedFrom]
    refine ⟨hnodup, ?_, ?_, ?_⟩
    · intro c hc
      exact hnamesB c (hperm.mem_iff.mpr hc)
    · intro d hd
      rcases hsrcB d hd with h₁ | h₂ | h₃
      · rcases hsrcA d h₁ with g₁ | g₂
        · cases g₁
        · exact hperm.mem_iff.mp g₂
      · exact hperm.mem_iff.mp h₂
      · exact hperm.mem_iff.mp h₃
    · intro i hi n hn
      rcases depsClosedFrom_index topo [] hclosed i hi n hn with hmem | hj
      · cases hmem
      · exact hj

/-- C2 (witness): the scenario-A chain resolves and satisfies the
invariants. -/
theorem resolve_invariants_witness :
    (topoNames topoA).Nodup ∧
    (∀ c ∈ colA, c.name ∈ topoNames topoA) ∧
    (∀ d ∈ topoA, d.chart ∈ colA) ∧
    ∀ (i : Nat) (hi : i < topoA.length),
      ∀ n ∈ (topoA.get ⟨i, hi⟩).chart.dependsOn,
      ∃ j, ∃ hj : j < topoA.length, j < i ∧ (topoA.get ⟨j, hj⟩).chart.name = n :=
  resolve_invariants cfgA colA topoA (by decide)

/-- C4 (amended): the two orderings the resolver chooses among tied charts
are alphabetical — the children sort orders equal-weight children by name,
and the phase-B walk is alphabetized — and resolution is insensitive to the
order the charts were collected in: chart lists equal up to permutation
(with distinct names) resolve identically.  Product charts, however, follow
configuration declaration order (see the counterexample). -/
theorem resolve_tiebreak_deterministic :
    (∀ l : List Chart,
      List.Pairwise (fun a b => a.weight = b.weight → nameLe a.name b.name = true)
        (sortChildren l)) ∧
    (∀ col : List Chart, List.Pairwise chartNameLe (collectionWalk col)) ∧
    ∀ (cfg : Config) (l₁ l₂ : List Chart), l₁.Perm l₂ →
      List.Pairwise (fun a b => a.name ≠ b.name) l₁ →
      Resolve cfg l₁ = Resolve cfg l₂ := by
  refine ⟨?_, ?_, ?_⟩
  · intro l
    have hs := List.sorted_insertionSort childLe l
    refine hs.imp ?_
    intro a b hab heq
    rcases hab with h | ⟨_, hle⟩
    · rw [heq] at h
      exact absurd h (lt_irrefl _)
    · exact hle
  · intro col
    exact List.sorted_insertionSort chartNameLe col
  · intro cfg l₁ l₂ hperm hne
    have hwalk : collectionWalk l₁ = collectionWalk l₂ := by
      have hp : (collectionWalk l₁).Perm (collectionWalk l₂) :=
        (collectionWalk_perm l₁).trans (hperm.trans (collectionWalk_perm l₂).symm)
      have hne₁ : List.Pairwise (fun a b : Chart => a.name ≠ b.name)
          (collectionWalk l₁) :=
        ((collectionWalk_perm l₁).pairwise_iff
          (fun hab => Ne.symm hab)).mpr hne
      have hne₂ : List.Pairwise (fun a b : Chart => a.name ≠ b.name)
          (collectionWalk l₂) :=
        (hp.pairwise_iff (fun hab => Ne.symm hab)).mp hne₁
      have hs₁ : List.Sorted chartNameLt (collectionWalk l₁) :=
        ((List.sorted_insertionSort chartNameLe l₁).and hne₁).imp
          (fun hab => ⟨hab.1, hab.2⟩)
      have hs₂ : List.Sorted chartNameLt (collectionWalk l₂) :=
        ((List.sorted_insertionSort chartNameLe l₂).and hne₂).imp
          (fun hab => ⟨hab.1, hab.2⟩)
      exact List.eq_of_perm_of_sorted hp hs₁ hs₂
    unfold Resolve
    rw [hwalk]

/-- C4 (counterexample): the claim as stated fails for product charts: two
charts tied on weight with no dependency relation appear in product
declaration order, not alphabetically. -/
theorem resolve_tiebreak_unconditional_false :
    Resolve cfgZA colZA = .ok [⟨chZ, "zn"⟩, ⟨chA2, "an"⟩] ∧
    chZ.weight = chA2.weight ∧
    chZ.dependsOn = [] ∧ chA2.dependsOn = [] ∧
    nameLe chA2.name chZ.name = true ∧ chA2.name ≠ chZ.name := by
  decide

/-- C4 (witness): the three parts instantiated — a tied children sort, an
alphabetized walk, and a permuted collection resolving identically. -/
theorem resolve_tiebreak_deterministic_witness :
    List.Pairwise (fun a b => a.weight = b.weight → nameLe a.name b.name = true)
      (sortChildren [chZ, chA2]) ∧
    List.Pairwise chartNameLe (collectionWalk colZA) ∧
    Resolve cfgA [chC, chA, chB] = Resolve cfgA colA :=
  ⟨resolve_tiebreak_deterministic.1 [chZ, chA2],
    resolve_tiebreak_deterministic.2.1 colZA,
    resolve_tiebreak_deterministic.2.2 cfgA [chC, chA, chB] colA
      (by decide) (by decide)⟩

/-! ### Deploy-sequence lemmas -/

theorem deployOrder_uncontended (r : String) (s : CMState) :
    deployOrder r [] s = some { rv := s.rv + 1, seqData := s.seqData ++ [r] } := by
  simp [deployOrder, deployOrderAttempts]

theorem runDeploySequence_some :
    ∀ (rs : List String) (s : CMState),
      runDeploySequence rs (some s) =
        some { rv := s.rv + rs.length, seqData := s.seqData ++ rs }
  | [], s => by simp [runDeploySequence]
  | r :: rs, s => by
    simp only [runDeploySequence, ensureCM, deployOrder_uncontended]
    rw [runDeploySequence_some rs _]
    simp only [Option.some.injEq, CMState.mk.injEq, List.append_assoc,
      List.singleton_append, List.cons_append, List.nil_append,
      List.length_cons]
    exact ⟨by omega, by simp⟩

theorem deployOrderAttempts_allConflict :
    ∀ (n : Nat) (r : String) (s : CMState),
      deployOrderAttempts r n (List.replicate n bumpRv) s = none
  | 0, _, _ => rfl
  | n + 1, r, s => by
    rw [deployOrderAttempts, List.replicate_succ]
    simp only [List.headD_cons, List.tail_cons]
    rw [if_neg (by simp [bumpRv])]
    exact deployOrderAttempts_allConflict n r _

theorem deployOrderAttempts_succeeds :
    ∀ (n : Nat) (r : String) (s : CMState),
      deployOrderAttempts r (n + 1) (List.replicate n bumpRv) s =
        some { rv := s.rv + n + 1, seqData := s.seqData ++ [r] }
  | 0, r, s => by simp [deployOrderAttempts]
  | n + 1, r, s => by
    rw [deployOrderAttempts, List.replicate_succ]
    simp only [List.headD_cons, List.tail_cons]
    rw [if_neg (by simp [bumpRv])]
    rw [deployOrderAttempts_succeeds n r (bumpRv s)]
    simp only [bumpRv, Option.some.injEq, CMState.mk.injEq]
    exact ⟨by omega, trivial⟩

/-- C3: a deployment run over a resolved topology records the release names
into the deploy-sequence ConfigMap exactly in topology order, each append
being a resource-version-conditional update that retries on conflict and
gives up only after its 5 attempts are exhausted.  (The recording script is
embedded from `deploy-order.sh`; the sequential orchestrator walk is
modelled from the spec.) -/
theorem deploy_sequence_order (cfg : Config) (col : List Chart)
    (topo : Topology) (h : Resolve cfg col = .ok topo) :
    runDeploySequence (topoNames topo) (some { rv := 0, seqData := [] }) =
      some { rv := (topoNames topo).length, seqData := topoNames topo } ∧
    (∀ (r : String) (s : CMState),
      deployOrder r [] s = some { rv := s.rv + 1, seqData := s.seqData ++ [r] }) ∧
    (∀ (r : String) (s : CMState),
      deployOrder r (List.replicate 4 bumpRv) s =
        some { rv := s.rv + 5, seqData := s.seqData ++ [r] }) ∧
    ∀ (r : String) (s : CMState),
      deployOrder r (List.replicate 5 bumpRv) s = none := by
  refine ⟨?_, deployOrder_uncontended, fun r s => ?_, fun r s => ?_⟩
  · rw [runDeploySequence_some]
    simp
  · have h45 : s.rv + 4 + 1 = s.rv + 5 := by omega
    rw [show deployOrder r (List.replicate 4 bumpRv) s =
      deployOrderAttempts r 5 (List.replicate 4 bumpRv) s from rfl,
      deployOrderAttempts_succeeds 4 r s, h45]
  · exact deployOrderAttempts_allConflict 5 r s

/-- C3 (witness): the scenario-A run records `a`, `b`, `c` in order. -/
theorem deploy_sequence_order_witness :
    runDeploySequence (topoNames topoA) (some { rv := 0, seqData := [] }) =
      some { rv := (topoNames topoA).length, seqData := topoNames topoA } ∧
    (∀ (r : String) (s : CMState),
      deployOrder r [] s = some { rv := s.rv + 1, seqData := s.seqData ++ [r] }) ∧
    (∀ (r : String) (s : CMState),
      deployOrder r (List.replicate 4 bumpRv) s =
        some { rv := s.rv + 5, seqData := s.seqData ++ [r] }) ∧
    ∀ (r : String) (s : CMState),
      deployOrder r (List.replicate 5 bumpRv) s = none :=
  deploy_sequence_order cfgA colA topoA (by decide)

/-! ### MCP phase lemmas -/

/-- C8: the reported phase is a function of cluster state that reads
`AWAITING_CONFIGURATION` exactly when the configuration ConfigMap is absent;
after a successful `config_init` the phase is no longer
`AWAITING_CONFIGURATION`, also after a subsequent `config_product_enabled`
mutation.  (Modelled from the spec; the status tool source is not among the
provided files.) -/
theorem mcp_phase_configuration (s s' : MCPCluster) (dflt : Config)
    (h : configInit dflt s = some s') :
    (∀ st : MCPCluster,
      derivePhase st = .awaitingConfiguration ↔ st.config = none) ∧
    derivePhase s' ≠ .awaitingConfiguration ∧
    ∀ (name : String) (b : Bool),
      derivePhase (setProductEnabled name b s') ≠ .awaitingConfiguration := by
  have hiff : ∀ st : MCPCluster,
      derivePhase st = .awaitingConfiguration ↔ st.config = none := by
    intro st
    cases hc : st.config with
    | none => simp [derivePhase, hc]
    | some cfg =>
      simp only [derivePhase, hc]
      cases st.integrationsReady with
      | false => simp
      | true => cases st.job <;> simp
  have hs' : ∃ cfg, s'.config = some cfg := by
    unfold configInit at h
    cases hc : s.config with
    | some cfg => rw [hc] at h; cases h
    | none =>
      rw [hc] at h
      cases h
      exact ⟨dflt, rfl⟩
  obtain ⟨cfg, hcfg⟩ := hs'
  refine ⟨hiff, ?_, ?_⟩
  · intro hph
    rw [hiff s', hcfg] at hph
    cases hph
  · intro name b hph
    rw [hiff _] at hph
    unfold setProductEnabled at hph
    rw [hcfg] at hph
    cases hph

/-- C8 (witness): `config_init` from the empty cluster, then disabling a
product, never reads `AWAITING_CONFIGURATION`. -/
theorem mcp_phase_configuration_witness :
    (∀ st : MCPCluster,
      derivePhase st = .awaitingConfiguration ↔ st.config = none) ∧
    derivePhase
        { config := some cfgA, integrationsReady := false, job := .notFound } ≠
      .awaitingConfiguration ∧
    ∀ (name : String) (b : Bool),
      derivePhase (setProductEnabled name b
          { config := some cfgA, integrationsReady := false, job := .notFound }) ≠
        .awaitingConfiguration :=
  mcp_phase_configuration
    { config := none, integrationsReady := false, job := .notFound }
    { config := some cfgA, integrationsReady := false, job := .notFound }
    cfgA (by decide)

/-! ### Integration subcommand lemmas -/

theorem find?_setProduct_self :
    ∀ (ps : List Product) (pn : String) (spec spec' : Product),
      ps.find? (fun p => p.name == pn) = some spec → spec'.name = pn →
      (ps.map (fun p => if p.name == pn then spec' else p)).find?
          (fun p => p.name == pn) = some spec'
  | [], _, _, _, h, _ => by cases h
  | q :: ps, pn, spec, spec', h, hn => by
    by_cases hq : q.name = pn
    · simp only [List.map_cons, if_pos (beq_iff_eq.mpr hq)]
      rw [List.find?_cons_of_pos _ (by simp [hn])]
    · have hqb : (q.name == pn) = false := by simp [hq]
      rw [List.find?_cons_of_neg _ (by simp [hq])] at h
      simp only [List.map_cons, hqb, Bool.false_eq_true, if_false]
      rw [List.find?_cons_of_neg _ (by simp [hq])]
      exact find?_setProduct_self ps pn spec spec' h hn

theorem find?_setProduct_other :
    ∀ (ps : List Product) (pn q : String) (spec' : Product),
      spec'.name = pn → q ≠ pn →
      (ps.map (fun p => if p.name == pn then spec' else p)).find?
          (fun p => p.name == q) = ps.find? (fun p => p.name == q)
  | [], _, _, _, _, _ => rfl
  | x :: ps, pn, q, spec', hn, hq => by
    by_cases hx : x.name = pn
    · simp only [List.map_cons, if_pos (beq_iff_eq.mpr hx)]
      rw [List.find?_cons_of_neg _ (by simp [hn]; exact fun h => hq h.symm),
        List.find?_cons_of_neg _ (by simp [hx]; exact fun h => hq h.symm)]
      exact find?_setProduct_other ps pn q spec' hn hq
    · have hxb : (x.name == pn) = false := by simp [hx]
      simp only [List.map_cons, hxb, Bool.false_eq_true, if_false]
      by_cases hxq : x.name = q
      · rw [List.find?_cons_of_pos _ (by simp [hxq]),
          List.find?_cons_of_pos _ (by simp [hxq])]
      · rw [List.find?_cons_of_neg _ (by simp [hxq]),
          List.find?_cons_of_neg _ (by simp [hxq])]
        exact find?_setProduct_other ps pn q spec' hn hq

theorem mem_setProduct_other {ps : List Product} {p : Product} {pn : String}
    (spec' : Product) (hp : p ∈ ps) (hne : p.name ≠ pn) :
    p ∈ ps.map (fun x => if x.name == pn then spec' else x) := by
  have : p = (fun x : Product => if x.name == pn then spec' else x) p := by
    simp [hne]
  rw [this]
  exact List.mem_map_of_mem _ hp

/-- C9: after `disableProductForIntegration` for integration `X`: when the
Secret for `X` exists, a product provides `X`, and that product is enabled,
exactly that product is set `enabled=false` and the configuration ConfigMap
is updated, with every other product, the product's other fields, and the
cluster Secrets left unchanged; when the Secret is absent, no product
provides `X`, or the product is already disabled, the configuration is not
modified at all. -/
theorem disable_product_scoped (appName : String) (col : List Chart)
    (cl : SubcmdCluster) (cfg : Config) (integ pn : String) (spec : Product)
    (hpn : getProductNameForIntegration col integ = pn) :
    (integrationExists cl appName integ = false →
      disableProductForIntegration appName col cl cfg integ = some (cfg, cl)) ∧
    (pn = "" →
      disableProductForIntegration appName col cl cfg integ = some (cfg, cl)) ∧
    (integrationExists cl appName integ = true → pn ≠ "" →
      getProduct cfg pn = some spec → spec.enabled = false →
      disableProductForIntegration appName col cl cfg integ = some (cfg, cl)) ∧
    (integrationExists cl appName integ = true → pn ≠ "" →
      getProduct cfg pn = some spec → spec.enabled = true →
      disableProductForIntegration appName col cl cfg integ =
        some (setProduct cfg pn { spec with enabled := false },
          { cl with
              storedConfig := some (setProduct cfg pn { spec with enabled := false }) }) ∧
      getProduct (setProduct cfg pn { spec with enabled := false }) pn =
        some { spec with enabled := false } ∧
      (∀ q, q ≠ pn →
        getProduct (setProduct cfg pn { spec with enabled := false }) q =
          getProduct cfg q) ∧
      (∀ p ∈ cfg.products, p.name ≠ pn →
        p ∈ (setProduct cfg pn { spec with enabled := false }).products) ∧
      ({ cl with
          storedConfig := some (setProduct cfg pn { spec with enabled := false }) }).secrets =
        cl.secrets) := by
  have hspecname : getProduct cfg pn = some spec → spec.name = pn := by
    intro h
    have := List.find?_some h
    simpa [beq_iff_eq] using this
  refine ⟨?_, ?_, ?_, ?_⟩
  · intro hex
    unfold disableProductForIntegration
    rw [hex]
    rfl
  · intro hempty
    unfold disableProductForIntegration
    cases hex : integrationExists cl appName integ with
    | false => rfl
    | true =>
      simp only [Bool.not_true, Bool.false_eq_true, if_false]
      rw [hpn, hempty]
      rfl
  · intro hex hne hget hdis
    unfold disableProductForIntegration
    rw [hex]
    simp only [Bool.not_true, Bool.false_eq_true, if_false]
    rw [hpn]
    rw [if_neg (by simp [hne])]
    simp [hget, hdis]
  · intro hex hne hget hen
    have hname : spec.name = pn := hspecname hget
    have hname' : ({ spec with enabled := false } : Product).name = pn := hname
    refine ⟨?_, ?_, ?_, ?_, rfl⟩
    · unfold disableProductForIntegration
      rw [hex]
      simp only [Bool.not_true, Bool.false_eq_true, if_false]
      rw [hpn]
      rw [if_neg (by simp [hne])]
      simp [hget, hen]
    · unfold getProduct setProduct
      exact find?_setProduct_self cfg.products pn spec _ hget hname'
    · intro q hq
      unfold getProduct setProduct
      exact find?_setProduct_other cfg.products pn q _ hname' hq
    · intro p hp hpne
      unfold setProduct
      exact mem_setProduct_other _ hp hpne

/-- C9 (witness): with the `acs` Secret present, product `Prod P` (provided
by chart `p`) is disabled and everything else is untouched. -/
theorem disable_product_scoped_witness :
    disableProductForIntegration "app" [intP] clW cfgW "acs" =
      some (setProduct cfgW "Prod P"
          { name := "Prod P", enabled := false, productNamespace := "pp" },
        { clW with
            storedConfig := some (setProduct cfgW "Prod P"
              { name := "Prod P", enabled := false, productNamespace := "pp" }) }) ∧
    getProduct (setProduct cfgW "Prod P"
        { name := "Prod P", enabled := false, productNamespace := "pp" })
      "Prod P" =
      some { name := "Prod P", enabled := false, productNamespace := "pp" } ∧
    (∀ q, q ≠ "Prod P" →
      getProduct (setProduct cfgW "Prod P"
          { name := "Prod P", enabled := false, productNamespace := "pp" }) q =
        getProduct cfgW q) ∧
    (∀ p ∈ cfgW.products, p.name ≠ "Prod P" →
      p ∈ (setProduct cfgW "Prod P"
          { name := "Prod P", enabled := false, productNamespace := "pp" }).products) ∧
    ({ clW with
        storedConfig := some (setProduct cfgW "Prod P"
          { name := "Prod P", enabled := false, productNamespace := "pp" }) }).secrets =
      clW.secrets :=
  (disable_product_scoped "app" [intP] clW cfgW "acs" "Prod P"
      { name := "Prod P", enabled := true, productNamespace := "pp" }
      (by decide)).2.2.2
    (by decide) (by decide) (by decide) rfl

/-- C10: for every registered integration module, the integration parent
command has a child whose name equals the module's name; when the module's
original command name differs, the original name is preserved as an alias of
the renamed command. -/
theorem newIntegration_child_names (mods : List IntegrationModule) :
    ∀ m ∈ mods, ∃ c ∈ newIntegrationChildren mods,
      c.nameStr = m.name ∧
      (m.cmd.nameStr ≠ m.name → m.cmd.nameStr ∈ c.aliases) := by
  intro m hm
  refine ⟨adjustChild m.name m.cmd, List.mem_map_of_mem _ hm, ?_, ?_⟩
  · unfold adjustChild
    by_cases h : m.cmd.nameStr ≠ m.name
    · rw [if_pos h]
    · rw [if_neg h]
      exact not_not.mp h
  · intro hne
    unfold adjustChild
    rw [if_pos hne]
    simp

/-- C10 (witness): the `tas` module: the child is named `tas` and keeps
`trusted-artifact-signer` as an alias. -/
theorem newIntegration_child_names_witness :
    ∃ c ∈ newIntegrationChildren [tasModule],
      c.nameStr = tasModule.name ∧
      (tasModule.cmd.nameStr ≠ tasModule.name →
        tasModule.cmd.nameStr ∈ c.aliases) :=
  newIntegration_child_names [tasModule] tasModule (by decide)

end Helmet
